import Mathlib

/-!
Verification of the price/stock synchronisation pipeline (`seller.py` for the
Ozon marketplace, `market.py` for Yandex Market).

The Python source is embedded shallowly: the pure list transformations
(`price_conversion`, `divide`, `create_stocks`, `create_prices`) become Lean
functions over explicit data; in-place mutation of the `offer_ids` list is
made explicit by returning the post-call value of the list; code that can
raise a Python exception returns `Option`/`Except`; the paginated catalog
readers are embedded with an explicit fuel parameter and a server oracle.
-/

/-- A source-feed row (one record of `watch_remnants`): the product code
`str(watch.get("Код"))`, quantity `str(watch.get("Количество"))` and the raw
price string `watch.get("Цена")`. -/
structure Watch where
  code : String
  quantity : String
  price : String
deriving DecidableEq

/-- One Ozon stock update, `{"offer_id": ..., "stock": ...}`
(seller.py line 205). -/
structure StockItem where
  offer_id : String
  stock : Int
deriving DecidableEq

/-- One Ozon price update (seller.py lines 234-240); the first, second and
fourth fields are the constants `"UNKNOWN"`, `"RUB"`, `"0"` in the source. -/
structure PriceItem where
  auto_action_enabled : String
  currency_code : String
  offer_id : String
  old_price : String
  price : String
deriving DecidableEq

/-- The single element of the `items` field of a Yandex stock update
(market.py lines 179-186): `{"count": ..., "type": "FIT", "updatedAt": date}`. -/
structure MarketStockEntry where
  count : Int
  type : String
  updatedAt : String
deriving DecidableEq

/-- One Yandex stock update (market.py lines 175-187). -/
structure MarketStock where
  sku : String
  warehouseId : String
  items : List MarketStockEntry
deriving DecidableEq

/-- One Yandex price update (market.py lines 226-232): `{"id": ...,
"price": {"value": ..., "currencyId": "RUR"}}`. -/
structure MarketPrice where
  id : String
  value : Int
  currencyId : String
deriving DecidableEq

/-- Numeric value of a decimal digit character (used to model Python `int`). -/
def charToDigit (c : Char) : Nat := c.toNat - 48

/-- Modelled from the Python builtin `int` applied to a string, restricted to
the shapes reaching it in this code: a nonempty all-digit string parses to the
number it denotes, anything else (in particular the empty string produced by
`price_conversion` on digit-free input) raises `ValueError`, modelled as
`none`.  Signs, whitespace and underscores, which Python `int` also accepts,
never occur in this pipeline and are not modelled. -/
def pyInt (s : String) : Option Int :=
  if s.toList ≠ [] ∧ s.toList.all Char.isDigit then
    some ((s.toList.foldl (fun a c => a * 10 + charToDigit c) 0 : Nat) : Int)
  else none

/-- The decimal representation of a natural number (what Python `str` prints
for a nonnegative integer): its base-10 digits, most significant first. -/
def decimalRepr (n : Nat) : String :=
  if n = 0 then "0" else String.mk ((Nat.digits 10 n).reverse.map Nat.digitChar)

/-- The quantity normalisation used by `create_stocks`, textually identical in
seller.py lines 198-204 and market.py lines 168-174: `">10"` becomes 100,
`"1"` becomes 0, anything else goes through Python `int` (which raises on a
non-numeric string, modelled as `none`). -/
def normalize_count (count : String) : Option Int :=
  if count = ">10" then some 100
  else if count = "1" then some 0
  else pyInt count

/-- Python `str.split` on the separator `"."`: always returns a nonempty list
of the dot-free segments of the input. -/
def pySplitDot : List Char → List (List Char)
  | [] => [[]]
  | c :: cs =>
    if c = '.' then [] :: pySplitDot cs
    else
      match pySplitDot cs with
      | [] => [[c]]
      | p :: ps => (c :: p) :: ps

/-- seller.py line 266: `re.sub("[^0-9]", "", price.split(".")[0])` — the
segment before the first dot with every non-digit character removed. -/
def price_conversion (price : String) : String :=
  String.mk (((pySplitDot price.toList).headD []).filter Char.isDigit)

/-- The integer portion of the price string (everything before the first dot)
contains no decimal digit. -/
def noDigitIntPart (s : String) : Prop :=
  ∀ c ∈ s.toList.takeWhile (fun c => c ≠ '.'), c.isDigit = false

instance (s : String) : Decidable (noDigitIntPart s) := by
  unfold noDigitIntPart; infer_instance

/-- seller.py lines 292-293: `for i in range(0, len(lst), n): yield
lst[i : i + n]`.  `List.range' 0 k n` is Python's `range(0, len(lst), n)`
with `k = ceil(len(lst) / n)` elements, and `lst[i : i + n]` is
`(lst.drop i).take n`. -/
def divide (lst : List α) (n : Nat) : List (List α) :=
  (List.range' 0 ((lst.length + n - 1) / n) n).map (fun i => (lst.drop i).take n)

/-- The matching pass of seller.py `create_stocks` (lines 196-206): walks the
source records; a record whose code is in the current `offer_ids` list emits a
stock update and removes that code from the list (`offer_ids.remove`, which
deletes the first occurrence).  Returns the emitted updates together with the
post-loop value of the (mutated) `offer_ids` list; `none` models the
`ValueError` of `int()` on a non-numeric quantity. -/
def seller_create_stocks_loop :
    List Watch → List String → Option (List StockItem × List String)
  | [], offer_ids => some ([], offer_ids)
  | watch :: rest, offer_ids =>
    if watch.code ∈ offer_ids then
      match normalize_count watch.quantity with
      | none => none
      | some stock =>
        match seller_create_stocks_loop rest (offer_ids.erase watch.code) with
        | none => none
        | some (stocks, remaining) => some (⟨watch.code, stock⟩ :: stocks, remaining)
    else seller_create_stocks_loop rest offer_ids

/-- seller.py `create_stocks` (lines 176-210): the matching pass followed by a
zero-stock update for every identifier still left in the mutated list (lines
208-209).  The second component of the result is the post-call value of the
caller's `offer_ids` list, which the function mutates in place. -/
def seller_create_stocks (watch_remnants : List Watch) (offer_ids : List String) :
    Option (List StockItem × List String) :=
  match seller_create_stocks_loop watch_remnants offer_ids with
  | none => none
  | some (stocks, remaining) =>
    some (stocks ++ remaining.map (fun offer_id => ⟨offer_id, 0⟩), remaining)

/-- seller.py `create_prices` (lines 213-242): one price record per source row
whose code is in `offer_ids`; the list is not mutated here. -/
def seller_create_prices : List Watch → List String → List PriceItem
  | [], _ => []
  | watch :: rest, offer_ids =>
    if watch.code ∈ offer_ids then
      ⟨"UNKNOWN", "RUB", watch.code, "0", price_conversion watch.price⟩ ::
        seller_create_prices rest offer_ids
    else seller_create_prices rest offer_ids

/-- The data flow of seller.py `main` (lines 350-356) after the catalog ids
and the source feed have been fetched: build the stock updates (mutating
`offer_ids` in place), batch them by 100, then build the price updates — from
the *same, now mutated* `offer_ids` list — and batch them by 900.  Returns the
submitted stock batches and price batches. -/
def seller_main_core (watch_remnants : List Watch) (offer_ids : List String) :
    Option (List (List StockItem) × List (List PriceItem)) :=
  match seller_create_stocks watch_remnants offer_ids with
  | none => none
  | some (stocks, remaining) =>
    some (divide stocks 100, divide (seller_create_prices watch_remnants remaining) 900)

/-- The matching pass of market.py `create_stocks` (lines 166-188): same loop
as the Ozon version but emitting the Yandex payload shape.  `date` stands for
the `utcnow`-derived timestamp computed once at line 165. -/
def market_create_stocks_loop (warehouse_id date : String) :
    List Watch → List String → Option (List MarketStock × List String)
  | [], offer_ids => some ([], offer_ids)
  | watch :: rest, offer_ids =>
    if watch.code ∈ offer_ids then
      match normalize_count watch.quantity with
      | none => none
      | some stock =>
        match market_create_stocks_loop warehouse_id date rest (offer_ids.erase watch.code) with
        | none => none
        | some (stocks, remaining) =>
          some (⟨watch.code, warehouse_id, [⟨stock, "FIT", date⟩]⟩ :: stocks, remaining)
    else market_create_stocks_loop warehouse_id date rest offer_ids

/-- market.py `create_stocks` (lines 146-203): matching pass, then a
zero-count update for every identifier left in the mutated list. -/
def market_create_stocks (watch_remnants : List Watch) (offer_ids : List String)
    (warehouse_id date : String) : Option (List MarketStock × List String) :=
  match market_create_stocks_loop warehouse_id date watch_remnants offer_ids with
  | none => none
  | some (stocks, remaining) =>
    some (stocks ++ remaining.map (fun offer_id => ⟨offer_id, warehouse_id, [⟨0, "FIT", date⟩]⟩),
      remaining)

/-- market.py `create_prices` (lines 206-234): like the Ozon version but the
price goes through `int(price_conversion(...))`, whose `ValueError` on a
digit-free price is modelled as `none`. -/
def market_create_prices : List Watch → List String → Option (List MarketPrice)
  | [], _ => some []
  | watch :: rest, offer_ids =>
    if watch.code ∈ offer_ids then
      match pyInt (price_conversion watch.price) with
      | none => none
      | some v => (market_create_prices rest offer_ids).map (fun prices => ⟨watch.code, v, "RUR"⟩ :: prices)
    else market_create_prices rest offer_ids

/-- One product as returned by the Ozon listing endpoint (only the field the
code reads). -/
structure OzonProduct where
  offer_id : String
deriving DecidableEq

/-- One page of the Ozon `v2/product/list` response: the fields `items`,
`total` and `last_id` read by `get_offer_ids` (seller.py lines 72-75). -/
structure OzonPage where
  items : List OzonProduct
  total : Nat
  last_id : String

/-- The `while True` pagination loop of seller.py `get_offer_ids` (lines
69-77), with the remote endpoint abstracted as a function from the request's
`last_id` to the response page and an explicit fuel bound; `none` means the
loop did not reach its break within `fuel` iterations. -/
def ozon_get_offer_ids_loop (server : String → OzonPage) :
    Nat → String → List OzonProduct → Option (List OzonProduct)
  | 0, _, _ => none
  | fuel + 1, last_id, product_list =>
    let some_prod := server last_id
    let acc := product_list ++ some_prod.items
    if some_prod.total = acc.length then some acc
    else ozon_get_offer_ids_loop server fuel some_prod.last_id acc

/-- seller.py `get_offer_ids` (lines 51-81): run the pagination loop from the
empty `last_id`, then project each collected product to its `offer_id`. -/
def ozon_get_offer_ids (server : String → OzonPage) (fuel : Nat) : Option (List String) :=
  (ozon_get_offer_ids_loop server fuel "" []).map (fun l => l.map OzonProduct.offer_id)

/-- The token sent by the k-th Ozon request: `""` first, then the `last_id` of
the previous response. -/
def ozonToken (server : String → OzonPage) : Nat → String
  | 0 => ""
  | k + 1 => (server (ozonToken server k)).last_id

/-- Products accumulated after the first `k` Ozon pages, in fetch order. -/
def ozonCollected (server : String → OzonPage) (k : Nat) : List OzonProduct :=
  ((List.range k).map (fun i => (server (ozonToken server i)).items)).flatten

/-- The Ozon loop's break condition holds at iteration `k`: the total reported
by the k-th page equals the number of items collected so far. -/
def ozonStop (server : String → OzonPage) (k : Nat) : Prop :=
  (server (ozonToken server k)).total = (ozonCollected server (k + 1)).length

/-- One product entry of the Yandex listing response (only the field read by
the code, `entry.get("offer").get("shopSku")`). -/
structure MarketProduct where
  shopSku : String
deriving DecidableEq

/-- One page of the Yandex `offer-mapping-entries` response: the fields read
by `get_offer_ids` (market.py lines 136-137). -/
structure MarketPage where
  offerMappingEntries : List MarketProduct
  nextPageToken : String

/-- The `while True` pagination loop of market.py `get_offer_ids` (lines
132-139): collect entries, follow `nextPageToken`, break when the token is
falsy (the empty string). -/
def market_get_offer_ids_loop (server : String → MarketPage) :
    Nat → String → List MarketProduct → Option (List MarketProduct)
  | 0, _, _ => none
  | fuel + 1, page, product_list =>
    let some_prod := server page
    let acc := product_list ++ some_prod.offerMappingEntries
    if some_prod.nextPageToken = "" then some acc
    else market_get_offer_ids_loop server fuel some_prod.nextPageToken acc

/-- market.py `get_offer_ids` (lines 115-143). -/
def market_get_offer_ids (server : String → MarketPage) (fuel : Nat) : Option (List String) :=
  (market_get_offer_ids_loop server fuel "" []).map (fun l => l.map MarketProduct.shopSku)

/-- The token sent by the k-th Yandex request. -/
def marketToken (server : String → MarketPage) : Nat → String
  | 0 => ""
  | k + 1 => (server (marketToken server k)).nextPageToken

/-- Entries accumulated after the first `k` Yandex pages, in fetch order. -/
def marketCollected (server : String → MarketPage) (k : Nat) : List MarketProduct :=
  ((List.range k).map (fun i => (server (marketToken server i)).offerMappingEntries)).flatten

/-- The Yandex loop's break condition at iteration `k`: the k-th response
carries an empty `nextPageToken`. -/
def marketStop (server : String → MarketPage) (k : Nat) : Prop :=
  (server (marketToken server k)).nextPageToken = ""

/-- The Python exceptions that can reach the handlers of `main`: the
`requests` exceptions raised by the API calls and the `ValueError` of `int`,
plus a catch-all for any other `Exception` subclass. -/
inductive PyExc where
  | readTimeout
  | connectionError (msg : String)
  | httpError (status : Nat)
  | valueError (msg : String)
  | otherError (msg : String)
deriving DecidableEq

/-- What `main` reports: normal completion, or the message printed by the
matching `except` clause (seller.py lines 357-362, market.py lines 318-323). -/
inductive Report where
  | finished
  | timeoutMsg
  | connectionMsg (msg : String)
  | errorMsg (e : PyExc)
deriving DecidableEq

/-- Modelled from the `requests` library semantics of
`Response.raise_for_status`, called after every API request in both files: it
raises `HTTPError` exactly for client-error and server-error statuses
(`400 <= status < 600`) and returns normally for any other status. -/
def raise_for_status (status : Nat) : Except PyExc Unit :=
  if 400 ≤ status ∧ status < 600 then .error (.httpError status) else .ok ()

/-- A Python `try` body made of sequential calls: each call either returns or
raises; the first raise aborts the remaining calls.  Returns how many calls
were actually performed and the overall outcome. -/
def tryBody : List (Except PyExc Unit) → Nat × Except PyExc Unit
  | [] => (0, .ok ())
  | call :: rest =>
    match call with
    | .ok _ => let r := tryBody rest; (r.1 + 1, r.2)
    | .error e => (1, .error e)

/-- Every modelled exception is a subclass of Python `Exception`, so the
final `except Exception` clause catches it. -/
def isException : PyExc → Bool := fun _ => true

/-- The `except` chain of `main`, identical in both files: `ReadTimeout`
prints a timeout message, `ConnectionError` prints the error with a message,
any other `Exception` is printed with the tag `ERROR_2`; only an exception
outside the `Exception` hierarchy would propagate. -/
def excHandlers : Except PyExc Unit → Except PyExc Report
  | .ok _ => .ok .finished
  | .error e =>
    match e with
    | .readTimeout => .ok .timeoutMsg
    | .connectionError m => .ok (.connectionMsg m)
    | e => if isException e then .ok (.errorMsg e) else .error e

/-- seller.py `main` (lines 341-363): the whole sync body runs inside the
`try`, whose sequential calls are abstracted as their outcomes; the result is
the number of calls performed and what the handler produced. -/
def seller_main_run (calls : List (Except PyExc Unit)) : Nat × Except PyExc Report :=
  ((tryBody calls).1, excHandlers (tryBody calls).2)

/-- market.py `main` (lines 291-323): `download_stock()` runs *before* the
`try` (line 299), so an exception there propagates out of `main`; the
marketplace API calls run inside the `try`. -/
def market_main_run (download : Except PyExc Unit) (calls : List (Except PyExc Unit)) :
    Except PyExc (Nat × Report) :=
  match download with
  | .error e => .error e
  | .ok _ =>
    match excHandlers (tryBody calls).2 with
    | .error e => .error e
    | .ok rep => .ok ((tryBody calls).1, rep)

/-- The file-system effects of one `download_stock` run: whether the
extracted `ostatki.xls` is on disk afterwards and whether `os.remove` was
reached. -/
structure DlEffects where
  fileOnDisk : Bool
  removeCalled : Bool
deriving DecidableEq

/-- seller.py `download_stock` (lines 144-173) as a step sequence:
`raise_for_status` on the download, then extraction (which may raise after
creating the file or not — `extractCreates`), then parsing (which may raise),
then `os.remove("./ostatki.xls")`.  An exception at any step skips every
later step. -/
def download_stock_run (status : Nat) (extractExc : Option PyExc) (extractCreates : Bool)
    (parseExc : Option PyExc) : DlEffects × Except PyExc Unit :=
  match raise_for_status status with
  | .error e => (⟨false, false⟩, .error e)
  | .ok _ =>
    match extractExc with
    | some e => (⟨extractCreates, false⟩, .error e)
    | none =>
      match parseExc with
      | some e => (⟨true, false⟩, .error e)
      | none => (⟨false, true⟩, .ok ())

/-! ### Lemmas about `price_conversion` -/

theorem pySplitDot_ne_nil (cs : List Char) : pySplitDot cs ≠ [] := by
  induction cs with
  | nil => simp [pySplitDot]
  | cons c cs ih =>
    simp only [pySplitDot]
    split
    · simp
    · cases h : pySplitDot cs <;> simp

theorem pySplitDot_headD (cs : List Char) :
    (pySplitDot cs).headD [] = cs.takeWhile (fun c => c ≠ '.') := by
  induction cs with
  | nil => rfl
  | cons c cs ih =>
    by_cases hc : c = '.'
    · subst hc
      simp [pySplitDot, List.takeWhile_cons]
    · cases h : pySplitDot cs with
      | nil => exact absurd h (pySplitDot_ne_nil cs)
      | cons p ps =>
        rw [h] at ih
        simp only [pySplitDot, if_neg hc, h, List.headD_cons, List.takeWhile_cons]
        simp only [List.headD_cons] at ih
        simp [hc, ih]

theorem price_conversion_eq (s : String) :
    price_conversion s =
      String.mk ((s.toList.takeWhile (fun c => c ≠ '.')).filter Char.isDigit) := by
  unfold price_conversion
  rw [pySplitDot_headD]

theorem price_conversion_of_noDigit {s : String} (h : noDigitIntPart s) :
    price_conversion s = "" := by
  rw [price_conversion_eq]
  have hnil : (s.toList.takeWhile (fun c => c ≠ '.')).filter Char.isDigit = [] := by
    rw [List.filter_eq_nil_iff]
    intro a ha
    simp [h a ha]
  rw [hnil]

/-! ### Lemmas about `divide` -/

theorem divide_nil (n : Nat) : divide ([] : List α) n = [] := by
  unfold divide
  have h : (List.length ([] : List α) + n - 1) / n = 0 := by
    cases n with
    | zero => simp
    | succ m =>
      simp only [List.length_nil, Nat.zero_add]
      exact Nat.div_eq_of_lt (by omega)
  rw [h]
  rfl

theorem divide_slice_shift (lst : List α) (n : Nat) :
    ∀ (m s : Nat),
      (List.range' (s + n) m n).map (fun i => (lst.drop i).take n) =
        (List.range' s m n).map (fun i => ((lst.drop n).drop i).take n) := by
  intro m
  induction m with
  | zero => intro s; rfl
  | succ m ih =>
    intro s
    rw [List.range'_succ, List.range'_succ, List.map_cons, List.map_cons]
    congr 1
    · rw [List.drop_drop, Nat.add_comm n s]
    · exact ih (s + n)

theorem divide_cons {lst : List α} {n : Nat} (hn : 1 ≤ n) (hne : lst ≠ []) :
    divide lst n = lst.take n :: divide (lst.drop n) n := by
  have hL : 1 ≤ lst.length := List.length_pos.mpr hne
  have key : (lst.length + n - 1) / n = ((lst.drop n).length + n - 1) / n + 1 := by
    rw [List.length_drop]
    rcases Nat.le_total lst.length n with hle | hle
    · have h1 : lst.length - n = 0 := by omega
      rw [h1]
      have h2 : (0 + n - 1) / n = 0 := Nat.div_eq_of_lt (by omega)
      have h3 : (lst.length + n - 1) / n = 1 := by
        rw [show lst.length + n - 1 = lst.length - 1 + n by omega,
          Nat.add_div_right _ (by omega), Nat.div_eq_of_lt (by omega)]
      omega
    · rw [show lst.length - n + n - 1 = lst.length - 1 by omega,
        show lst.length + n - 1 = lst.length - 1 + n by omega,
        Nat.add_div_right _ (by omega)]
  unfold divide
  rw [key, List.range'_succ, List.map_cons, List.drop_zero]
  congr 1
  have := divide_slice_shift lst n (((lst.drop n).length + n - 1) / n) 0
  simpa using this

theorem divide_length (lst : List α) (n : Nat) :
    (divide lst n).length = (lst.length + n - 1) / n := by
  unfold divide
  rw [List.length_map, List.length_range']

theorem divide_flatten {n : Nat} (hn : 1 ≤ n) (lst : List α) :
    (divide lst n).flatten = lst := by
  have main : ∀ (fuel : Nat) (l : List α), l.length ≤ fuel → (divide l n).flatten = l := by
    intro fuel
    induction fuel with
    | zero =>
      intro l h
      have : l = [] := by cases l <;> simp_all
      subst this
      simp [divide_nil]
    | succ fuel ih =>
      intro l h
      rcases eq_or_ne l [] with rfl | hne
      · simp [divide_nil]
      · rw [divide_cons hn hne, List.flatten_cons,
          ih (l.drop n) (by
            rw [List.length_drop]
            have : 1 ≤ l.length := List.length_pos.mpr hne
            omega)]
        exact List.take_append_drop n l
  exact main lst.length lst le_rfl

theorem divide_chunk_le (lst : List α) (n : Nat) :
    ∀ c ∈ divide lst n, c.length ≤ n := by
  intro c hc
  unfold divide at hc
  simp only [List.mem_map] at hc
  obtain ⟨i, _, rfl⟩ := hc
  simp [List.length_take]

theorem divide_ne_nil_of_ne_nil {n : Nat} (hn : 1 ≤ n) {lst : List α} (hne : lst ≠ []) :
    divide lst n ≠ [] := by
  rw [divide_cons hn hne]
  simp

theorem divide_full {n : Nat} (hn : 1 ≤ n) (lst : List α) :
    ∀ i c, (divide lst n)[i]? = some c → i + 1 < (divide lst n).length →
      c.length = n := by
  have main : ∀ (fuel : Nat) (l : List α), l.length ≤ fuel →
      ∀ i c, (divide l n)[i]? = some c → i + 1 < (divide l n).length →
        c.length = n := by
    intro fuel
    induction fuel with
    | zero =>
      intro l h i c h1 h2
      have : l = [] := by cases l <;> simp_all
      subst this
      rw [divide_nil] at h1
      simp at h1
    | succ fuel ih =>
      intro l h i c h1 h2
      rcases eq_or_ne l [] with rfl | hne
      · rw [divide_nil] at h1
        simp at h1
      · have hdrop : (l.drop n).length ≤ fuel := by
          rw [List.length_drop]
          have : 1 ≤ l.length := List.length_pos.mpr hne
          omega
        cases i with
        | zero =>
          rw [divide_cons hn hne] at h1 h2
          simp only [List.getElem?_cons_zero, Option.some_inj] at h1
          have hrest : divide (l.drop n) n ≠ [] := by
            simp only [List.length_cons] at h2
            intro hcon
            rw [hcon] at h2
            simp at h2
          have hdne : l.drop n ≠ [] := by
            intro hcon
            exact hrest (by rw [hcon, divide_nil])
          have hlen : n < l.length := by
            by_contra hcon
            push_neg at hcon
            exact hdne (List.drop_eq_nil_of_le hcon)
          rw [← h1, List.length_take]
          omega
        | succ j =>
          rw [divide_cons hn hne] at h1 h2
          simp only [List.getElem?_cons_succ] at h1
          simp only [List.length_cons, Nat.add_lt_add_iff_right] at h2
          exact ih (l.drop n) hdrop j c h1 (by omega)
  exact main lst.length lst le_rfl

theorem divide_chunk_of_dvd {n : Nat} (hn : 1 ≤ n) (lst : List α) (hd : n ∣ lst.length) :
    ∀ c ∈ divide lst n, c.length = n := by
  have main : ∀ (fuel : Nat) (l : List α), l.length ≤ fuel → n ∣ l.length →
      ∀ c ∈ divide l n, c.length = n := by
    intro fuel
    induction fuel with
    | zero =>
      intro l h _ c hc
      have : l = [] := by cases l <;> simp_all
      subst this
      rw [divide_nil] at hc
      exact absurd hc (by simp)
    | succ fuel ih =>
      intro l h hdvd c hc
      rcases eq_or_ne l [] with rfl | hne
      · rw [divide_nil] at hc
        exact absurd hc (by simp)
      · rw [divide_cons hn hne] at hc
        have hL : 1 ≤ l.length := List.length_pos.mpr hne
        have hnL : n ≤ l.length := Nat.le_of_dvd (by omega) hdvd
        rcases List.mem_cons.mp hc with rfl | hmem
        · rw [List.length_take]
          omega
        · refine ih (l.drop n) ?_ ?_ c hmem
          · rw [List.length_drop]; omega
          · rw [List.length_drop]
            exact (Nat.dvd_sub' hdvd dvd_rfl)
  exact main lst.length lst le_rfl hd

/-! ### Lemmas about decimal digits and `pyInt` -/

theorem digitChar_spec :
    ∀ d : Nat, d < 10 → (Nat.digitChar d).isDigit = true ∧ charToDigit (Nat.digitChar d) = d := by
  decide

theorem foldl_digitChar (l : List Nat) :
    ∀ acc : Nat, (∀ d ∈ l, d < 10) →
      (l.reverse.map Nat.digitChar).foldl (fun a c => a * 10 + charToDigit c) acc =
        acc * 10 ^ l.length + Nat.ofDigits 10 l := by
  induction l with
  | nil => intro acc _; simp
  | cons d t ih =>
    intro acc hd
    rw [List.reverse_cons, List.map_append, List.foldl_append]
    simp only [List.map_cons, List.map_nil, List.foldl_cons, List.foldl_nil]
    rw [ih acc (fun x hx => hd x (List.mem_cons_of_mem d hx))]
    have hcd : charToDigit (Nat.digitChar d) = d :=
      (digitChar_spec d (hd d (List.mem_cons_self d t))).2
    rw [hcd, Nat.ofDigits_cons, List.length_cons, pow_succ]
    ring

theorem pyInt_decimalRepr (n : Nat) : pyInt (decimalRepr n) = some (n : Int) := by
  rcases eq_or_ne n 0 with rfl | hn
  · decide
  · unfold pyInt decimalRepr
    rw [if_neg hn]
    have hdig : ∀ d ∈ Nat.digits 10 n, d < 10 := fun d hd => Nat.digits_lt_base (by omega) hd
    have hlist : (String.mk ((Nat.digits 10 n).reverse.map Nat.digitChar)).toList =
        (Nat.digits 10 n).reverse.map Nat.digitChar := rfl
    rw [hlist]
    have hne : (Nat.digits 10 n).reverse.map Nat.digitChar ≠ [] := by
      simp [Nat.digits_ne_nil_iff_ne_zero.mpr hn]
    have hall : ((Nat.digits 10 n).reverse.map Nat.digitChar).all Char.isDigit = true := by
      rw [List.all_eq_true]
      intro c hc
      simp only [List.mem_map, List.mem_reverse] at hc
      obtain ⟨d, hd, rfl⟩ := hc
      exact (digitChar_spec d (hdig d hd)).1
    rw [if_pos ⟨hne, hall⟩]
    have hfold := foldl_digitChar (Nat.digits 10 n) 0 hdig
    simp only [Nat.zero_mul, Nat.zero_add] at hfold
    rw [hfold, Nat.ofDigits_digits]

theorem decimalRepr_all_digits (n : Nat) :
    ∀ c ∈ (decimalRepr n).toList, c.isDigit = true := by
  rcases eq_or_ne n 0 with rfl | hn
  · decide
  · unfold decimalRepr
    rw [if_neg hn]
    intro c hc
    have hc' : c ∈ (Nat.digits 10 n).reverse.map Nat.digitChar := hc
    simp only [List.mem_map, List.mem_reverse] at hc'
    obtain ⟨d, hd, rfl⟩ := hc'
    exact (digitChar_spec d (Nat.digits_lt_base (by omega) hd)).1

theorem decimalRepr_ne_gt10 (n : Nat) : decimalRepr n ≠ ">10" := by
  intro hcon
  have hmem : '>' ∈ (decimalRepr n).toList := by
    rw [hcon]
    decide
  have := decimalRepr_all_digits n '>' hmem
  exact absurd this (by decide)

theorem decimalRepr_eq_one {n : Nat} (h : decimalRepr n = "1") : n = 1 := by
  rcases eq_or_ne n 0 with rfl | hn
  · exact absurd h (by decide)
  · unfold decimalRepr at h
    rw [if_neg hn] at h
    have hl : (Nat.digits 10 n).reverse.map Nat.digitChar = ['1'] := by
      have := congrArg String.toList h
      simpa using this
    have hlen : (Nat.digits 10 n).length = 1 := by
      have := congrArg List.length hl
      simpa using this
    obtain ⟨d, hd⟩ := List.length_eq_one.mp hlen
    rw [hd] at hl
    simp only [List.reverse_cons, List.reverse_nil, List.nil_append, List.map_cons,
      List.map_nil, List.cons.injEq, and_true] at hl
    have hd10 : d < 10 := Nat.digits_lt_base (by omega) (by rw [hd]; simp)
    have hd1 : d = 1 := by
      have key : ∀ x : Nat, x < 10 → Nat.digitChar x = '1' → x = 1 := by decide
      exact key d hd10 hl
    have hof := Nat.ofDigits_digits 10 n
    rw [hd, hd1] at hof
    simpa using hof.symm

/-! ### Lemmas about the `create_stocks` matching loops -/

theorem seller_loop_spec :
    ∀ (ws : List Watch) (ids : List String) (out : List StockItem × List String),
      seller_create_stocks_loop ws ids = some out →
      (out.1.map StockItem.offer_id ++ out.2).Perm ids ∧ out.2.Sublist ids ∧
        ∀ it ∈ out.1, ∃ w ∈ ws, w.code = it.offer_id ∧
          normalize_count w.quantity = some it.stock := by
  intro ws
  induction ws with
  | nil =>
    intro ids out h
    simp only [seller_create_stocks_loop, Option.some_inj] at h
    subst h
    simp
  | cons w ws ih =>
    intro ids out h
    simp only [seller_create_stocks_loop] at h
    by_cases hmem : w.code ∈ ids
    · rw [if_pos hmem] at h
      cases hnc : normalize_count w.quantity with
      | none => rw [hnc] at h; simp at h
      | some stock =>
        rw [hnc] at h
        cases hrec : seller_create_stocks_loop ws (ids.erase w.code) with
        | none => rw [hrec] at h; simp at h
        | some out' =>
          rw [hrec] at h
          obtain ⟨stocks, remaining⟩ := out'
          simp only [Option.some_inj] at h
          subst h
          obtain ⟨hperm, hsub, hall⟩ := ih (ids.erase w.code) (stocks, remaining) hrec
          refine ⟨?_, ?_, ?_⟩
          · simp only [List.map_cons, List.cons_append]
            have h1 : ids.Perm (w.code :: ids.erase w.code) := List.perm_cons_erase hmem
            exact (hperm.cons w.code).trans h1.symm
          · exact hsub.trans (List.erase_sublist _ _)
          · intro it hit
            rcases List.mem_cons.mp hit with rfl | hit'
            · exact ⟨w, List.mem_cons_self w ws, rfl, hnc⟩
            · obtain ⟨w', hw', hcode, hq⟩ := hall it hit'
              exact ⟨w', List.mem_cons_of_mem w hw', hcode, hq⟩
    · rw [if_neg hmem] at h
      obtain ⟨hperm, hsub, hall⟩ := ih ids out h
      refine ⟨hperm, hsub, fun it hit => ?_⟩
      obtain ⟨w', hw', hcode, hq⟩ := hall it hit
      exact ⟨w', List.mem_cons_of_mem w hw', hcode, hq⟩

theorem market_loop_spec (warehouse_id date : String) :
    ∀ (ws : List Watch) (ids : List String) (out : List MarketStock × List String),
      market_create_stocks_loop warehouse_id date ws ids = some out →
      (out.1.map MarketStock.sku ++ out.2).Perm ids ∧ out.2.Sublist ids ∧
        ∀ it ∈ out.1, it.warehouseId = warehouse_id ∧ ∃ w ∈ ws, w.code = it.sku ∧
          ∃ v, normalize_count w.quantity = some v ∧ it.items = [⟨v, "FIT", date⟩] := by
  intro ws
  induction ws with
  | nil =>
    intro ids out h
    simp only [market_create_stocks_loop, Option.some_inj] at h
    subst h
    simp
  | cons w ws ih =>
    intro ids out h
    simp only [market_create_stocks_loop] at h
    by_cases hmem : w.code ∈ ids
    · rw [if_pos hmem] at h
      cases hnc : normalize_count w.quantity with
      | none => rw [hnc] at h; simp at h
      | some stock =>
        rw [hnc] at h
        cases hrec : market_create_stocks_loop warehouse_id date ws (ids.erase w.code) with
        | none => rw [hrec] at h; simp at h
        | some out' =>
          rw [hrec] at h
          obtain ⟨stocks, remaining⟩ := out'
          simp only [Option.some_inj] at h
          subst h
          obtain ⟨hperm, hsub, hall⟩ := ih (ids.erase w.code) (stocks, remaining) hrec
          refine ⟨?_, ?_, ?_⟩
          · simp only [List.map_cons, List.cons_append]
            have h1 : ids.Perm (w.code :: ids.erase w.code) := List.perm_cons_erase hmem
            exact (hperm.cons w.code).trans h1.symm
          · exact hsub.trans (List.erase_sublist _ _)
          · intro it hit
            rcases List.mem_cons.mp hit with rfl | hit'
            · exact ⟨rfl, w, List.mem_cons_self w ws, rfl, stock, hnc, rfl⟩
            · obtain ⟨hwid, w', hw', hcode, v, hq, hitems⟩ := hall it hit'
              exact ⟨hwid, w', List.mem_cons_of_mem w hw', hcode, v, hq, hitems⟩
    · rw [if_neg hmem] at h
      obtain ⟨hperm, hsub, hall⟩ := ih ids out h
      refine ⟨hperm, hsub, fun it hit => ?_⟩
      obtain ⟨hwid, w', hw', hcode, v, hq, hitems⟩ := hall it hit
      exact ⟨hwid, w', List.mem_cons_of_mem w hw', hcode, v, hq, hitems⟩

/-! ### Lemmas about the pagination loops -/

theorem ozonCollected_succ (server : String → OzonPage) (k : Nat) :
    ozonCollected server (k + 1) =
      ozonCollected server k ++ (server (ozonToken server k)).items := by
  unfold ozonCollected
  rw [List.range_succ, List.map_append, List.flatten_append]
  simp

theorem ozon_loop_reaches (server : String → OzonPage) (k : Nat)
    (hstop : ozonStop server k) (hmin : ∀ j, j < k → ¬ ozonStop server j) :
    ∀ d i, i + d = k →
      ozon_get_offer_ids_loop server (d + 1) (ozonToken server i) (ozonCollected server i) =
        some (ozonCollected server (k + 1)) := by
  intro d
  induction d with
  | zero =>
    intro i hi
    have hik : i = k := by omega
    subst hik
    have hstop' : (server (ozonToken server i)).total = (ozonCollected server (i + 1)).length :=
      hstop
    simp only [ozon_get_offer_ids_loop]
    rw [← ozonCollected_succ]
    rw [if_pos hstop']
  | succ d ih =>
    intro i hi
    have hik : i < k := by omega
    have hns : ¬ (server (ozonToken server i)).total = (ozonCollected server (i + 1)).length :=
      hmin i hik
    simp only [ozon_get_offer_ids_loop]
    rw [← ozonCollected_succ]
    rw [if_neg hns]
    exact ih (i + 1) (by omega)

theorem marketCollected_succ (server : String → MarketPage) (k : Nat) :
    marketCollected server (k + 1) =
      marketCollected server k ++ (server (marketToken server k)).offerMappingEntries := by
  unfold marketCollected
  rw [List.range_succ, List.map_append, List.flatten_append]
  simp

theorem market_loop_reaches (server : String → MarketPage) (k : Nat)
    (hstop : marketStop server k) (hmin : ∀ j, j < k → ¬ marketStop server j) :
    ∀ d i, i + d = k →
      market_get_offer_ids_loop server (d + 1) (marketToken server i) (marketCollected server i) =
        some (marketCollected server (k + 1)) := by
  intro d
  induction d with
  | zero =>
    intro i hi
    have hik : i = k := by omega
    subst hik
    have hstop' : (server (marketToken server i)).nextPageToken = "" := hstop
    simp only [market_get_offer_ids_loop]
    rw [← marketCollected_succ]
    rw [if_pos hstop']
  | succ d ih =>
    intro i hi
    have hik : i < k := by omega
    have hns : ¬ (server (marketToken server i)).nextPageToken = "" := hmin i hik
    simp only [market_get_offer_ids_loop]
    rw [← marketCollected_succ]
    rw [if_neg hns]
    exact ih (i + 1) (by omega)

/-! ### Lemmas about the exception model -/

theorem tryBody_firstError :
    ∀ (calls : List (Except PyExc Unit)) (i : Nat) (e : PyExc),
      calls[i]? = some (.error e) → (∀ j, j < i → calls[j]? = some (.ok ())) →
      tryBody calls = (i + 1, .error e) := by
  intro calls
  induction calls with
  | nil => intro i e h _; simp at h
  | cons c cs ih =>
    intro i e h hok
    cases i with
    | zero =>
      simp only [List.getElem?_cons_zero, Option.some_inj] at h
      subst h
      rfl
    | succ i =>
      have hc : c = .ok () := by
        have := hok 0 (by omega)
        simpa using this
      subst hc
      simp only [List.getElem?_cons_succ] at h
      have hok' : ∀ j, j < i → cs[j]? = some (.ok ()) := by
        intro j hj
        have := hok (j + 1) (by omega)
        simpa using this
      have hrec := ih i e h hok'
      simp only [tryBody, hrec]

theorem excHandlers_ok (r : Except PyExc Unit) : ∃ rep : Report, excHandlers r = .ok rep := by
  cases r with
  | ok u => exact ⟨.finished, rfl⟩
  | error e => cases e <;> exact ⟨_, rfl⟩

/-! ### The claims -/

/-- C1: for the Ozon pipeline as orchestrated by `main`, with the one-record
feed (code "123", quantity ">10", price "5'990.00 руб.") and the catalog
["123", "456"], the claim asserts stock batches [[{"123",100},{"456",0}]] and
one price entry {"123","5990"}.  This theorem evaluates the embedded `main`
data flow at exactly that input: the stock batches are as claimed, but the
price batch list is empty — `main` hands `create_prices` the `offer_ids` list
already consumed by `create_stocks`, so "123" is no longer in it.  The second
conjunct shows that `create_prices` on the original (unconsumed) catalog list
would have produced exactly the claimed price entry. -/
theorem claim_C1 :
    seller_main_core [⟨"123", ">10", "5\x27990.00 руб."⟩] ["123", "456"] =
        some ([[⟨"123", 100⟩, ⟨"456", 0⟩]], []) ∧
    seller_create_prices [⟨"123", ">10", "5\x27990.00 руб."⟩] ["123", "456"] =
        [⟨"UNKNOWN", "RUB", "123", "0", "5990"⟩] := by
  exact ⟨by decide, by decide⟩

/-- C2: the quantity normalisation shared by both `create_stocks` loops
(`normalize_count`) maps ">10" to 100, "1" to 0, and any other quantity
string to the integer it denotes: for every natural number n other than 1,
the decimal representation of n is parsed back to n. -/
theorem claim_C2 :
    normalize_count ">10" = some 100 ∧ normalize_count "1" = some 0 ∧
    ∀ n : Nat, n ≠ 1 → normalize_count (decimalRepr n) = some (n : Int) := by
  refine ⟨by decide, by decide, fun n hn => ?_⟩
  unfold normalize_count
  rw [if_neg (decimalRepr_ne_gt10 n), if_neg (fun h => hn (decimalRepr_eq_one h)),
    pyInt_decimalRepr]

/-- Witness for C2 at the concrete input n = 0 (the spec's "0" → 0 vector). -/
theorem claim_C2_witness : normalize_count (decimalRepr 0) = some 0 :=
  claim_C2.2.2 0 (by decide)

/-- C3: `price_conversion` keeps exactly the digits of the segment before the
first dot: it equals the takeWhile/filter characterisation for every input,
maps "5'990.00 руб." to "5990" and "1 234 руб." to "1234", maps the empty
string to the empty string, and maps any input whose integer portion has no
digit to the empty string. -/
theorem claim_C3 :
    (∀ s : String,
      price_conversion s =
        String.mk ((s.toList.takeWhile (fun c => c ≠ '.')).filter Char.isDigit)) ∧
    price_conversion "5\x27990.00 руб." = "5990" ∧
    price_conversion "1 234 руб." = "1234" ∧
    price_conversion "" = "" ∧
    ∀ s : String, noDigitIntPart s → price_conversion s = "" :=
  ⟨price_conversion_eq, by decide, by decide, by decide,
    fun s h => price_conversion_of_noDigit h⟩

/-- Witness for C3 at the concrete digit-free input "no digits". -/
theorem claim_C3_witness : price_conversion "no digits" = "" :=
  claim_C3.2.2.2.2 "no digits" (by decide)

/-- C4: for every list and every chunk size n ≥ 1, `divide` yields exactly
ceil(L/n) = (L + n - 1) / n chunks, every chunk except possibly the last has
length n (and every chunk has length at most n, all of them exactly n when n
divides L), the chunks concatenate back to the input, and the empty list
yields no chunks. -/
theorem claim_C4 {α : Type} (lst : List α) (n : Nat) (hn : 1 ≤ n) :
    (divide lst n).length = (lst.length + n - 1) / n ∧
    (divide lst n).flatten = lst ∧
    (∀ i c, (divide lst n)[i]? = some c → i + 1 < (divide lst n).length →
      c.length = n) ∧
    (∀ c ∈ divide lst n, c.length ≤ n) ∧
    (n ∣ lst.length → ∀ c ∈ divide lst n, c.length = n) ∧
    (lst = [] → divide lst n = []) :=
  ⟨divide_length lst n, divide_flatten hn lst, divide_full hn lst, divide_chunk_le lst n,
    fun hd => divide_chunk_of_dvd hn lst hd, fun h => by rw [h]; exact divide_nil n⟩

/-- Witness for C4 at the docstring example: [1..8] divided by 3. -/
theorem claim_C4_witness :
    (divide [1, 2, 3, 4, 5, 6, 7, 8] 3).length = 3 ∧
    (divide [1, 2, 3, 4, 5, 6, 7, 8] 3).flatten = [1, 2, 3, 4, 5, 6, 7, 8] := by
  have h := claim_C4 [1, 2, 3, 4, 5, 6, 7, 8] 3 (by decide)
  exact ⟨h.1.trans (by decide), h.2.1⟩

/-- C5: in both marketplace integrations, when `create_stocks` returns
normally it emits exactly one update per entry of the original identifier
list — the emitted identifiers are a permutation of the original list and the
number of updates equals its length — and every update either carries a
matching record's normalised quantity or is a zero-stock update. -/
theorem claim_C5 :
    (∀ (ws : List Watch) (ids : List String) (stocks : List StockItem) (rem : List String),
      seller_create_stocks ws ids = some (stocks, rem) →
      stocks.length = ids.length ∧ (stocks.map StockItem.offer_id).Perm ids ∧
        ∀ it ∈ stocks, (∃ w ∈ ws, w.code = it.offer_id ∧
          normalize_count w.quantity = some it.stock) ∨ it.stock = 0) ∧
    (∀ (warehouse_id date : String) (ws : List Watch) (ids : List String)
        (stocks : List MarketStock) (rem : List String),
      market_create_stocks ws ids warehouse_id date = some (stocks, rem) →
      stocks.length = ids.length ∧ (stocks.map MarketStock.sku).Perm ids ∧
        ∀ it ∈ stocks, (∃ w ∈ ws, w.code = it.sku ∧
          ∃ v, normalize_count w.quantity = some v ∧ it.items = [⟨v, "FIT", date⟩]) ∨
          it.items = [⟨0, "FIT", date⟩]) := by
  constructor
  · intro ws ids stocks rem h
    unfold seller_create_stocks at h
    cases hloop : seller_create_stocks_loop ws ids with
    | none => rw [hloop] at h; simp at h
    | some out =>
      rw [hloop] at h
      obtain ⟨matched, remaining⟩ := out
      simp only [Option.some_inj, Prod.mk.injEq] at h
      obtain ⟨hstocks, hrem⟩ := h
      subst hstocks
      subst hrem
      obtain ⟨hperm, hsub, hall⟩ := seller_loop_spec ws ids (matched, remaining) hloop
      have hmapz : ∀ l : List String,
          (l.map (fun offer_id => (⟨offer_id, 0⟩ : StockItem))).map
            StockItem.offer_id = l := by
        intro l
        induction l with
        | nil => rfl
        | cons a l ih => simp only [List.map_cons, ih]
      refine ⟨?_, ?_, ?_⟩
      · have hlen := hperm.length_eq
        simp only [List.length_append, List.length_map] at hlen ⊢
        omega
      · rw [List.map_append, hmapz remaining]
        exact hperm
      · intro it hit
        rcases List.mem_append.mp hit with hit' | hit'
        · obtain ⟨w, hw, hcode, hq⟩ := hall it hit'
          exact Or.inl ⟨w, hw, hcode, hq⟩
        · obtain ⟨oid, _, rfl⟩ := List.mem_map.mp hit'
          exact Or.inr rfl
  · intro warehouse_id date ws ids stocks rem h
    unfold market_create_stocks at h
    cases hloop : market_create_stocks_loop warehouse_id date ws ids with
    | none => rw [hloop] at h; simp at h
    | some out =>
      rw [hloop] at h
      obtain ⟨matched, remaining⟩ := out
      simp only [Option.some_inj, Prod.mk.injEq] at h
      obtain ⟨hstocks, hrem⟩ := h
      subst hstocks
      subst hrem
      obtain ⟨hperm, hsub, hall⟩ := market_loop_spec warehouse_id date ws ids (matched, remaining) hloop
      have hmapz : ∀ l : List String,
          (l.map (fun offer_id =>
            (⟨offer_id, warehouse_id, [⟨0, "FIT", date⟩]⟩ : MarketStock))).map
            MarketStock.sku = l := by
        intro l
        induction l with
        | nil => rfl
        | cons a l ih => simp only [List.map_cons, ih]
      refine ⟨?_, ?_, ?_⟩
      · have hlen := hperm.length_eq
        simp only [List.length_append, List.length_map] at hlen ⊢
        omega
      · rw [List.map_append, hmapz remaining]
        exact hperm
      · intro it hit
        rcases List.mem_append.mp hit with hit' | hit'
        · obtain ⟨hwid, w, hw, hcode, v, hq, hitems⟩ := hall it hit'
          exact Or.inl ⟨w, hw, hcode, v, hq, hitems⟩
        · obtain ⟨oid, _, rfl⟩ := List.mem_map.mp hit'
          exact Or.inr rfl

/-- Witness for C5 at concrete inputs for both integrations. -/
theorem claim_C5_witness :
    (([⟨"A", 5⟩, ⟨"B", 0⟩] : List StockItem).map StockItem.offer_id).Perm ["A", "B"] ∧
    (([⟨"A", "W", [⟨0, "FIT", "D"⟩]⟩] : List MarketStock).map MarketStock.sku).Perm ["A"] := by
  constructor
  · exact (claim_C5.1 [⟨"A", "5", "x"⟩] ["A", "B"] [⟨"A", 5⟩, ⟨"B", 0⟩] ["B"] (by decide)).2.1
  · exact (claim_C5.2 "W" "D" [⟨"A", "1", "x"⟩] ["A"]
      [⟨"A", "W", [⟨0, "FIT", "D"⟩]⟩] [] (by decide)).2.1

/-- C6: in both integrations `create_stocks` consumes its `offer_ids`
argument: the post-call value of the list (returned as the second component)
is a sublist of the original, the emitted updates are the matched ones
followed by exactly one zero update per leftover identifier, the matched
identifiers together with the leftover list are a permutation of the original
list (so no identifier entry is consumed twice), and every matched update
comes from a source record. -/
theorem claim_C6 :
    (∀ (ws : List Watch) (ids : List String) (stocks : List StockItem) (rem : List String),
      seller_create_stocks ws ids = some (stocks, rem) →
      rem.Sublist ids ∧
        ∃ matched, stocks = matched ++ rem.map (fun offer_id => (⟨offer_id, 0⟩ : StockItem)) ∧
          (matched.map StockItem.offer_id ++ rem).Perm ids ∧
          ∀ it ∈ matched, ∃ w ∈ ws, w.code = it.offer_id) ∧
    (∀ (warehouse_id date : String) (ws : List Watch) (ids : List String)
        (stocks : List MarketStock) (rem : List String),
      market_create_stocks ws ids warehouse_id date = some (stocks, rem) →
      rem.Sublist ids ∧
        ∃ matched, stocks = matched ++ rem.map (fun offer_id =>
            (⟨offer_id, warehouse_id, [⟨0, "FIT", date⟩]⟩ : MarketStock)) ∧
          (matched.map MarketStock.sku ++ rem).Perm ids ∧
          ∀ it ∈ matched, ∃ w ∈ ws, w.code = it.sku) := by
  constructor
  · intro ws ids stocks rem h
    unfold seller_create_stocks at h
    cases hloop : seller_create_stocks_loop ws ids with
    | none => rw [hloop] at h; simp at h
    | some out =>
      rw [hloop] at h
      obtain ⟨matched, remaining⟩ := out
      simp only [Option.some_inj, Prod.mk.injEq] at h
      obtain ⟨hstocks, hrem⟩ := h
      subst hstocks
      subst hrem
      obtain ⟨hperm, hsub, hall⟩ := seller_loop_spec ws ids (matched, remaining) hloop
      exact ⟨hsub, matched, rfl, hperm,
        fun it hit => (hall it hit).imp (fun w hw => ⟨hw.1, hw.2.1⟩)⟩
  · intro warehouse_id date ws ids stocks rem h
    unfold market_create_stocks at h
    cases hloop : market_create_stocks_loop warehouse_id date ws ids with
    | none => rw [hloop] at h; simp at h
    | some out =>
      rw [hloop] at h
      obtain ⟨matched, remaining⟩ := out
      simp only [Option.some_inj, Prod.mk.injEq] at h
      obtain ⟨hstocks, hrem⟩ := h
      subst hstocks
      subst hrem
      obtain ⟨hperm, hsub, hall⟩ := market_loop_spec warehouse_id date ws ids
        (matched, remaining) hloop
      refine ⟨hsub, matched, rfl, hperm, fun it hit => ?_⟩
      obtain ⟨_, w, hw, hcode, _⟩ := hall it hit
      exact ⟨w, hw, hcode⟩

/-- Witness for C6: after the call with feed [("A","5")] and catalog
["A","B"], the leftover list ["B"] is a sublist of the original. -/
theorem claim_C6_witness :
    (["B"] : List String).Sublist ["A", "B"] ∧ ([] : List String).Sublist ["A"] := by
  constructor
  · exact (claim_C6.1 [⟨"A", "5", "x"⟩] ["A", "B"] [⟨"A", 5⟩, ⟨"B", 0⟩] ["B"] (by decide)).1
  · exact (claim_C6.2 "W" "D" [⟨"A", "1", "x"⟩] ["A"]
      [⟨"A", "W", [⟨0, "FIT", "D"⟩]⟩] [] (by decide)).1

/-- C7: both pagination loops terminate under the stated precondition — for
Ozon, some iteration k is the first whose reported total equals the number of
items collected; for Yandex, some iteration k is the first whose response has
an empty next-page token — and with fuel k+1 they return exactly the
identifiers of the collected pages, page by page in fetch order. -/
theorem claim_C7 :
    (∀ (server : String → OzonPage) (k : Nat),
      ozonStop server k → (∀ j, j < k → ¬ ozonStop server j) →
      ozon_get_offer_ids server (k + 1) =
        some ((ozonCollected server (k + 1)).map OzonProduct.offer_id)) ∧
    (∀ (server : String → MarketPage) (k : Nat),
      marketStop server k → (∀ j, j < k → ¬ marketStop server j) →
      market_get_offer_ids server (k + 1) =
        some ((marketCollected server (k + 1)).map MarketProduct.shopSku)) := by
  constructor
  · intro server k hstop hmin
    unfold ozon_get_offer_ids
    have h0 := ozon_loop_reaches server k hstop hmin k 0 (by omega)
    have ht : ozonToken server 0 = "" := rfl
    have hc : ozonCollected server 0 = [] := rfl
    rw [ht, hc] at h0
    rw [h0]
    rfl
  · intro server k hstop hmin
    unfold market_get_offer_ids
    have h0 := market_loop_reaches server k hstop hmin k 0 (by omega)
    have ht : marketToken server 0 = "" := rfl
    have hc : marketCollected server 0 = [] := rfl
    rw [ht, hc] at h0
    rw [h0]
    rfl

/-- Witness for C7: one-page servers for both marketplaces. -/
theorem claim_C7_witness :
    ozon_get_offer_ids (fun _ => ⟨[⟨"a"⟩, ⟨"b"⟩], 2, "t"⟩) 1 = some ["a", "b"] ∧
    market_get_offer_ids (fun _ => ⟨[⟨"c"⟩], ""⟩) 1 = some ["c"] := by
  constructor
  · have h := claim_C7.1 (fun _ => ⟨[⟨"a"⟩, ⟨"b"⟩], 2, "t"⟩) 0 rfl
      (fun j hj => absurd hj (Nat.not_lt_zero j))
    rw [h]
    rfl
  · have h := claim_C7.2 (fun _ => ⟨[⟨"c"⟩], ""⟩) 0 rfl
      (fun j hj => absurd hj (Nat.not_lt_zero j))
    rw [h]
    rfl

/-- C8 (amended): within one marketplace sync run, an HTTP error response
(status 4xx/5xx — the statuses for which the `requests` library's
`raise_for_status` raises; a 2xx returns normally) raises immediately; the
first raised exception aborts all later calls of the `try` body, so exactly
the calls up to and including the failing one are performed; the exception is
caught by the handler chain of `main`, which reports it and returns normally
— in particular a read timeout and a connection error are caught and
swallowed; this holds for the seller `main` unconditionally and for the
market `main` once `download_stock` (which runs before the `try`) has
succeeded. -/
theorem claim_C8 :
    (∀ status : Nat, 400 ≤ status → status < 600 →
      raise_for_status status = .error (.httpError status)) ∧
    (∀ status : Nat, 200 ≤ status → status < 300 → raise_for_status status = .ok ()) ∧
    (∀ (calls : List (Except PyExc Unit)) (i : Nat) (e : PyExc),
      calls[i]? = some (.error e) → (∀ j, j < i → calls[j]? = some (.ok ())) →
      tryBody calls = (i + 1, .error e)) ∧
    (∀ calls : List (Except PyExc Unit), ∃ rep : Report,
      (seller_main_run calls).2 = .ok rep) ∧
    (excHandlers (.error .readTimeout) = .ok .timeoutMsg ∧
      ∀ m, excHandlers (.error (.connectionError m)) = .ok (.connectionMsg m)) ∧
    (∀ calls : List (Except PyExc Unit), ∃ out, market_main_run (.ok ()) calls = .ok out) := by
  refine ⟨?_, ?_, tryBody_firstError, ?_, ⟨rfl, fun m => rfl⟩, ?_⟩
  · intro status h1 h2
    unfold raise_for_status
    rw [if_pos ⟨h1, h2⟩]
  · intro status h1 h2
    unfold raise_for_status
    rw [if_neg (by omega)]
  · intro calls
    obtain ⟨rep, hrep⟩ := excHandlers_ok (tryBody calls).2
    exact ⟨rep, hrep⟩
  · intro calls
    obtain ⟨rep, hrep⟩ := excHandlers_ok (tryBody calls).2
    refine ⟨((tryBody calls).1, rep), ?_⟩
    unfold market_main_run
    rw [hrep]

/-- Witness for C8: a concrete run whose second call raises a read timeout
performs exactly two calls, and a concrete 5xx status raises. -/
theorem claim_C8_witness :
    tryBody [.ok (), .error .readTimeout, .ok ()] = (2, .error .readTimeout) ∧
    raise_for_status 500 = .error (.httpError 500) := by
  constructor
  · refine claim_C8.2.2.1 [.ok (), .error .readTimeout, .ok ()] 1 .readTimeout rfl ?_
    intro j hj
    have hj0 : j = 0 := by omega
    subst hj0
    rfl
  · exact claim_C8.1 500 (by omega) (by omega)

/-- Counterexample to C8 as stated: 304 is not a 2xx status, yet
`raise_for_status` (per the `requests` library it models) returns normally on
it — only 4xx/5xx raise, so "non-2xx raises immediately" is false. -/
theorem claim_C8_cex :
    raise_for_status 304 = .ok () ∧ ¬ (200 ≤ 304 ∧ 304 < 300) := by
  constructor
  · rfl
  · omega

/-- C9: `download_stock` removes the extracted file when parsing succeeds
(`os.remove` reached, file gone afterwards), but when extraction or parsing
raises, `os.remove` is never reached and the extracted file — if it was
created — stays on disk. -/
theorem claim_C9 :
    (∀ (status : Nat) (b : Bool), 200 ≤ status → status < 300 →
      download_stock_run status none b none = (⟨false, true⟩, .ok ())) ∧
    (∀ (status : Nat) (b : Bool) (e : PyExc), 200 ≤ status → status < 300 →
      download_stock_run status (some e) b none = (⟨b, false⟩, .error e)) ∧
    (∀ (status : Nat) (e : PyExc), 200 ≤ status → status < 300 →
      download_stock_run status none true (some e) = (⟨true, false⟩, .error e)) := by
  have hok : ∀ status : Nat, 200 ≤ status → status < 300 →
      raise_for_status status = .ok () := by
    intro s h1 h2
    unfold raise_for_status
    rw [if_neg (by omega)]
  refine ⟨?_, ?_, ?_⟩
  · intro status b h1 h2
    unfold download_stock_run
    rw [hok status h1 h2]
  · intro status b e h1 h2
    unfold download_stock_run
    rw [hok status h1 h2]
  · intro status e h1 h2
    unfold download_stock_run
    rw [hok status h1 h2]

/-- Witness for C9 at status 200: success removes the file, a parse failure
leaves it on disk with `os.remove` never called. -/
theorem claim_C9_witness :
    download_stock_run 200 none true none = (⟨false, true⟩, .ok ()) ∧
    download_stock_run 200 none true (some (.valueError "m")) =
      (⟨true, false⟩, .error (.valueError "m")) :=
  ⟨claim_C9.1 200 true (by omega) (by omega),
    claim_C9.2.2 200 (.valueError "m") (by omega) (by omega)⟩

/-- C10: the two integrations diverge on digit-free prices: if some source
record matches a known identifier and its price has no digit before the first
dot, `market.create_prices` raises `ValueError` (modelled as `none`, from
`int("")`), while `seller.create_prices` returns normally and emits that
record with the empty string as its price. -/
theorem claim_C10 :
    (∀ (ws : List Watch) (ids : List String),
      (∃ w ∈ ws, w.code ∈ ids ∧ noDigitIntPart w.price) →
      market_create_prices ws ids = none) ∧
    (∀ (ws : List Watch) (ids : List String) (w : Watch), w ∈ ws → w.code ∈ ids →
      noDigitIntPart w.price →
      (⟨"UNKNOWN", "RUB", w.code, "0", ""⟩ : PriceItem) ∈ seller_create_prices ws ids) := by
  constructor
  · intro ws
    induction ws with
    | nil =>
      intro ids h
      obtain ⟨w, hw, _⟩ := h
      simp at hw
    | cons w' ws ih =>
      intro ids h
      obtain ⟨w, hw, hmem, hnd⟩ := h
      simp only [market_create_prices]
      by_cases hm' : w'.code ∈ ids
      · rw [if_pos hm']
        rcases List.mem_cons.mp hw with rfl | hw'
        · rw [price_conversion_of_noDigit hnd]
          have hnone : pyInt "" = none := by decide
          rw [hnone]
        · cases hp : pyInt (price_conversion w'.price) with
          | none => rfl
          | some v =>
            rw [ih ids ⟨w, hw', hmem, hnd⟩]
            rfl
      · rw [if_neg hm']
        rcases List.mem_cons.mp hw with rfl | hw'
        · exact absurd hmem hm'
        · exact ih ids ⟨w, hw', hmem, hnd⟩
  · intro ws
    induction ws with
    | nil =>
      intro ids w hw
      simp at hw
    | cons w' ws ih =>
      intro ids w hw hmem hnd
      simp only [seller_create_prices]
      rcases List.mem_cons.mp hw with rfl | hw'
      · rw [if_pos hmem, price_conversion_of_noDigit hnd]
        exact List.mem_cons_self _ _
      · by_cases hm' : w'.code ∈ ids
        · rw [if_pos hm']
          exact List.mem_cons_of_mem _ (ih ids w hw' hmem hnd)
        · rw [if_neg hm']
          exact ih ids w hw' hmem hnd

/-- Witness for C10 at a concrete matched record with the digit-free price
"xyz". -/
theorem claim_C10_witness :
    market_create_prices [⟨"A", "1", "xyz"⟩] ["A"] = none ∧
    (⟨"UNKNOWN", "RUB", "A", "0", ""⟩ : PriceItem) ∈
      seller_create_prices [⟨"A", "1", "xyz"⟩] ["A"] := by
  constructor
  · exact claim_C10.1 [⟨"A", "1", "xyz"⟩] ["A"]
      ⟨⟨"A", "1", "xyz"⟩, by decide, by decide, by decide⟩
  · exact claim_C10.2 [⟨"A", "1", "xyz"⟩] ["A"] ⟨"A", "1", "xyz"⟩ (by decide) (by decide)
      (by decide)
